import Mathlib

/-!
Verification of the NETCONF client library (nemith/netconf).

This file gives a shallow embedding, in Lean, of the parts of the library
relevant to the framing layer (RFC 6242 end-of-message and chunked framing),
the session layer (message-id assignment, rpc-reply dispatch, error
filtering), and the commit operation, and proves the specified properties
about them.

Bytes are modelled as `Nat` (ASCII codes), byte streams as `List Nat`.
A `bufio`-style reader over an in-memory byte string is modelled by explicit
list consumption: `Peek` failure and `ReadByte` at the end of the list are
the end-of-file conditions.  32-bit overflow in the chunk-size parser is
modelled by the explicit guard comparisons of the source against
`math.MaxUint32`, so plain `Nat` arithmetic is exact.
-/

deriving instance DecidableEq for Except

namespace Netconf

/-- Error outcomes of the framing and session layer, corresponding to the Go
error values `io.EOF`, `io.ErrUnexpectedEOF`, `ErrMalformedChunk`,
`ErrInvalidIO`, `ErrStreamBusy` and `bufio.ErrBufferFull`. -/
inductive IOErr where
  | eof
  | unexpectedEOF
  | malformedChunk
  | invalidUse
  | streamBusy
  | bufferFull
  deriving DecidableEq, Repr

/-- Value of `math.MaxUint32` used by the chunk-size overflow guards. -/
def maxUint32 : Nat := 4294967295

/-- Value of `math.MaxInt32`, the cap on the size of a single written chunk
(`chunkedWriter.Write`). -/
def maxInt32 : Nat := 2147483647

/-- Default buffer size of the `bufio.Reader` created by `NewFramer`
(msg.go line 266): `ReadSlice` can deliver a line of at most this many
bytes before failing with `bufio.ErrBufferFull`. -/
def bufioBufSize : Nat := 4096

/-- The end-of-chunks marker bytes `"\n##\n"` (`endOfChunks` in msg.go). -/
def endOfChunks : List Nat := [10, 35, 35, 10]

/-- The end-of-message sentinel bytes `"]]>]]>"` (`endOfMsg` in msg.go). -/
def endOfMsg : List Nat := [93, 93, 62, 93, 93, 62]

/-- Scanning loop of `bufio.Reader.ReadSlice` at a newline with `cap` bytes
of buffer capacity left: a line that would exceed the buffer fails with
`bufio.ErrBufferFull`; a stream that ends before a newline (with buffer
space remaining) fails with `io.EOF`. -/
def readSliceGo : Nat → List Nat → Except IOErr (List Nat × List Nat)
  | 0, _ => .error .bufferFull
  | _ + 1, [] => .error .eof
  | cap + 1, b :: rest =>
    if b = 10 then .ok ([10], rest)
    else
      match readSliceGo cap rest with
      | .error e => .error e
      | .ok (line, r) => .ok (b :: line, r)

/-- Model of `bufio.Reader.ReadSlice` at a newline over an in-memory stream
for the default 4096-byte reader of the framer: returns the bytes up to and
including the first newline together with the remaining stream; a line
longer than the buffer yields `bufio.ErrBufferFull`, and end of stream
before a newline yields `io.EOF`. -/
def readSliceNL (input : List Nat) : Except IOErr (List Nat × List Nat) :=
  readSliceGo bufioBufSize input

/-- The digit-parsing loop of `chunkedReader.readHeader` (msg.go lines
425-440): accumulates a chunk size in a `uint32`, rejecting non-digits and
values that would overflow 32 bits.  The accumulator `acc` is the running
`chunkSize`. -/
def parseChunkSize : Nat → List Nat → Except IOErr Nat
  | acc, [] => .ok acc
  | acc, c :: rest =>
    if c < 48 ∨ 57 < c then .error .malformedChunk
    else if maxUint32 / 10 < acc then .error .malformedChunk
    else
      let digit := c - 48
      if maxUint32 - digit < acc * 10 then .error .malformedChunk
      else parseChunkSize (acc * 10 + digit) rest

/-- Embedding of `chunkedReader.readHeader` (msg.go lines 379-447).  The
source peeks four bytes (fewer available means `io.ErrUnexpectedEOF`),
requires the `"\n#"` preamble, recognises the end-of-chunks marker `"\n##\n"`
as chunk size `0`, and otherwise reads the size digits up to a newline.
A parsed size of `0` is rejected as malformed.  A `ReadSlice` failure is
converted to `io.ErrUnexpectedEOF` when it is `io.EOF` and passed through
otherwise (msg.go lines 407-414).  Returns the chunk size and the
remaining stream. -/
def readHeader : List Nat → Except IOErr (Nat × List Nat)
  | b0 :: b1 :: b2 :: b3 :: rest =>
    if b0 ≠ 10 ∨ b1 ≠ 35 then .error .malformedChunk
    else if b2 = 35 ∧ b3 = 10 then .ok (0, rest)
    else
      match readSliceNL (b2 :: b3 :: rest) with
      | .error .eof => .error .unexpectedEOF
      | .error e => .error e
      | .ok (line, rest2) =>
        let digits := line.dropLast
        if digits = [] then .error .malformedChunk
        else
          match parseChunkSize 0 digits with
          | .error e => .error e
          | .ok 0 => .error .malformedChunk
          | .ok (n + 1) => .ok (n + 1, rest2)
  | _ => .error .unexpectedEOF

/-- Consuming the payload of one chunk: the per-chunk countdown performed by
`chunkedReader.ReadByte` via `chunkLeft`.  Returns the chunk data and the
remaining stream, or `none` when the stream ends inside the chunk (the
inner `r.r.ReadByte` of the source then yields `io.EOF`). -/
def readChunkData : Nat → List Nat → Option (List Nat × List Nat)
  | 0, input => some ([], input)
  | _ + 1, [] => none
  | n + 1, b :: rest =>
    match readChunkData n rest with
    | none => none
    | some (data, r) => some (b :: data, r)

/-- Fuelled driver of `chunkedReader.ReadByte` until end of message: reads a
header, then the chunk payload, repeatedly, until the end-of-chunks marker
(chunk size `0`) signals `io.EOF`.  The fuel only bounds the number of
chunks; `readMsg` supplies enough fuel for any input. -/
def readMsgGo : Nat → List Nat → Except IOErr (List Nat × List Nat)
  | 0, _ => .error .eof
  | fuel + 1, input =>
    match readHeader input with
    | .error e => .error e
    | .ok (0, rest) => .ok ([], rest)
    | .ok (n + 1, rest) =>
      match readChunkData (n + 1) rest with
      | none => .error .eof
      | some (data, rest2) =>
        match readMsgGo fuel rest2 with
        | .error e => .error e
        | .ok (tail, r) => .ok (data ++ tail, r)

/-- Reading one complete chunked message: the bytes delivered by driving
`chunkedReader.ReadByte` to end-of-stream, together with the stream position
after the end-of-chunks marker. -/
def readMsg (input : List Nat) : Except IOErr (List Nat × List Nat) :=
  readMsgGo (input.length + 1) input

/-- Decimal digit string (ASCII bytes) of a natural number, as produced by
`fmt.Fprintf("\n#%d\n", chunkSize)` for the chunk header. -/
def decimalDigits (n : Nat) : List Nat :=
  if n < 10 then [48 + n]
  else decimalDigits (n / 10) ++ [48 + n % 10]
termination_by n
decreasing_by
  exact Nat.div_lt_self (by omega) (by omega)

/-- Embedding of `chunkedWriter.Write` (msg.go lines 557-594): splits the
payload into chunks of at most `math.MaxInt32` bytes, each preceded by a
`"\n#%d\n"` header.  Returns the bytes emitted to the buffered writer. -/
def chunkedWrite (p : List Nat) : List Nat :=
  if h : p = [] then []
  else
    let chunkSize := min p.length maxInt32
    (10 :: 35 :: decimalDigits chunkSize ++ [10])
      ++ p.take chunkSize ++ chunkedWrite (p.drop chunkSize)
termination_by p.length
decreasing_by
  have hp : 0 < p.length := List.length_pos.mpr h
  simp only [List.length_drop]
  have : 0 < min p.length maxInt32 := by
    have : 0 < maxInt32 := by decide
    omega
  omega

/-- Driver of `markedReader.ReadByte` (msg.go lines 631-670) until end of
message.  A right-bracket byte (93) triggers a five-byte peek for the rest of the
`"]]>]]>"` sentinel; a complete sentinel is consumed and ends the message;
fewer than five bytes available to peek, or reading at end of input, yields
`io.ErrUnexpectedEOF`.  Returns the delivered bytes and the remaining
stream after the sentinel. -/
def markedReadAll : List Nat → Except IOErr (List Nat × List Nat)
  | [] => .error .unexpectedEOF
  | b :: rest =>
    if b = 93 then
      if 5 ≤ rest.length then
        if rest.take 5 = [93, 62, 93, 93, 62] then .ok ([], rest.drop 5)
        else
          match markedReadAll rest with
          | .error e => .error e
          | .ok (data, r) => .ok (b :: data, r)
      else .error .unexpectedEOF
    else
      match markedReadAll rest with
      | .error e => .error e
      | .ok (data, r) => .ok (b :: data, r)

/-- Bytes on the wire after writing a message body through `markedWriter`:
`Write` passes bytes through and `Close` appends the sentinel (msg.go lines
701-723). -/
def markedFramed (s : List Nat) : List Nat := s ++ endOfMsg

/-- The framing-relevant state of `transport.Framer` (msg.go lines 248-259):
the framing mode and the two exclusive-handle flags. -/
structure Framer where
  chunkFraming : Bool
  activeReader : Bool
  activeWriter : Bool
  deriving DecidableEq, Repr

/-- Embedding of `Framer.MsgReader` (msg.go lines 324-343): fails with
`ErrStreamBusy` while a reader handle is outstanding, otherwise sets the
flag and hands out a handle. -/
def Framer.MsgReader (f : Framer) : Except IOErr Framer :=
  if f.activeReader then .error .streamBusy
  else .ok { f with activeReader := true }

/-- Embedding of `Framer.MsgWriter` (msg.go lines 345-364). -/
def Framer.MsgWriter (f : Framer) : Except IOErr Framer :=
  if f.activeWriter then .error .streamBusy
  else .ok { f with activeWriter := true }

/-- Embedding of `Framer.closeReader` (msg.go lines 306-313): clears the
reader-active flag. -/
def Framer.closeReader (f : Framer) : Framer := { f with activeReader := false }

/-- Embedding of `Framer.closeWriter` (msg.go lines 315-322). -/
def Framer.closeWriter (f : Framer) : Framer := { f with activeWriter := false }

/-- Handle state of a `chunkedReader` (msg.go lines 372-377): `r` is the
buffered reader (`none` once `Close` has set it to `nil`), `chunkLeft` the
bytes left in the current chunk, `eof` whether the end-of-chunks marker was
seen. -/
structure ChunkedReader where
  r : Option (List Nat)
  chunkLeft : Nat
  eof : Bool
  deriving DecidableEq, Repr

/-- Embedding of `chunkedReader.ReadByte` (msg.go lines 480-504), returning
the byte read (or the error) and the updated handle. -/
def ChunkedReader.ReadByte (rd : ChunkedReader) : Except IOErr Nat × ChunkedReader :=
  match rd.r with
  | none => (.error .invalidUse, rd)
  | some input =>
    if rd.chunkLeft = 0 then
      match readHeader input with
      | .error e => (.error e, rd)
      | .ok (0, rest) => (.error .eof, { rd with r := some rest, eof := true })
      | .ok (n + 1, rest) =>
        match rest with
        | [] => (.error .eof, { rd with r := some [], chunkLeft := n + 1 })
        | b :: rest2 => (.ok b, { rd with r := some rest2, chunkLeft := n })
    else
      match input with
      | [] => (.error .eof, rd)
      | b :: rest2 => (.ok b, { rd with r := some rest2, chunkLeft := rd.chunkLeft - 1 })

/-- Embedding of `chunkedReader.Read` (msg.go lines 449-478): the size of the
caller buffer is `cap` (capped at `math.MaxUint32`); a fresh header is read
when no chunk bytes are left; at most `min cap chunkLeft` bytes are
delivered from the current chunk, never crossing a chunk boundary. -/
def ChunkedReader.Read (rd : ChunkedReader) (cap : Nat) : Except IOErr (List Nat) × ChunkedReader :=
  match rd.r with
  | none => (.error .invalidUse, rd)
  | some input =>
    let cap2 := min cap maxUint32
    if rd.chunkLeft = 0 then
      match readHeader input with
      | .error e => (.error e, rd)
      | .ok (0, rest) => (.error .eof, { rd with r := some rest, eof := true })
      | .ok (n + 1, rest) =>
        let toRead := min cap2 (n + 1)
        let k := min toRead rest.length
        if k = 0 ∧ toRead ≠ 0 then (.error .eof, { rd with r := some rest, chunkLeft := n + 1 })
        else (.ok (rest.take k), { rd with r := some (rest.drop k), chunkLeft := (n + 1) - k })
    else
      let toRead := min cap2 rd.chunkLeft
      let k := min toRead input.length
      if k = 0 ∧ toRead ≠ 0 then (.error .eof, rd)
      else (.ok (input.take k), { rd with r := some (input.drop k), chunkLeft := rd.chunkLeft - k })

/-- Embedding of `chunkedReader.Close` (msg.go lines 506-550): a closed
handle (`r = none`) returns `nil` immediately; otherwise the remainder of
the current chunk and all following chunks are drained up to the
end-of-chunks marker, and the deferred cleanup sets `r` to `nil` on every
exit path. -/
def ChunkedReader.Close (rd : ChunkedReader) : Except IOErr Unit × ChunkedReader :=
  match rd.r with
  | none => (.ok (), rd)
  | some input =>
    if rd.eof then (.ok (), { rd with r := none })
    else
      match readChunkData rd.chunkLeft input with
      | none => (.error .eof, { rd with r := none })
      | some (_, rest) =>
        match readMsg rest with
        | .error e => (.error e, { rd with r := none })
        | .ok _ => (.ok (), { rd with r := none })

/-- Handle state of a `markedReader` (msg.go lines 614-618). -/
structure MarkedReader where
  r : Option (List Nat)
  eof : Bool
  deriving DecidableEq, Repr

/-- Embedding of `markedReader.ReadByte` (msg.go lines 631-670). -/
def MarkedReader.ReadByte (rd : MarkedReader) : Except IOErr Nat × MarkedReader :=
  match rd.r with
  | none => (.error .invalidUse, rd)
  | some input =>
    if rd.eof then (.error .eof, rd)
    else
      match input with
      | [] => (.error .unexpectedEOF, rd)
      | b :: rest =>
        if b = 93 then
          if 5 ≤ rest.length then
            if rest.take 5 = [93, 62, 93, 93, 62] then
              (.error .eof, { rd with r := some (rest.drop 5), eof := true })
            else (.ok b, { rd with r := some rest })
          else (.error .unexpectedEOF, { rd with r := some rest })
        else (.ok b, { rd with r := some rest })

/-- Embedding of `markedReader.Read` (msg.go lines 620-629): fills the
caller buffer of size `cap` byte by byte via `ReadByte`, stopping at the
first error.  Returns the bytes delivered, the status, and the handle. -/
def MarkedReader.Read (rd : MarkedReader) (cap : Nat) : List Nat × Except IOErr Unit × MarkedReader :=
  match cap with
  | 0 => ([], .ok (), rd)
  | cap2 + 1 =>
    match rd.ReadByte with
    | (.error e, rd2) => ([], .error e, rd2)
    | (.ok b, rd2) =>
      match rd2.Read cap2 with
      | (data, st, rd3) => (b :: data, st, rd3)

/-- Embedding of `markedReader.Close` (msg.go lines 672-694): a closed
handle returns `nil`; otherwise the message is drained through `ReadByte`
up to the sentinel, and `r` is set to `nil` on every exit path. -/
def MarkedReader.Close (rd : MarkedReader) : Except IOErr Unit × MarkedReader :=
  match rd.r with
  | none => (.ok (), rd)
  | some input =>
    if rd.eof then (.ok (), { rd with r := none })
    else
      match markedReadAll input with
      | .error e => (.error e, { rd with r := none })
      | .ok _ => (.ok (), { rd with r := none })

/-- Handle state of a `chunkedWriter` (msg.go lines 552-555): `w` holds the
bytes accumulated in the buffered writer (`none` once closed), `flushed`
the bytes already pushed to the underlying stream. -/
structure ChunkedWriter where
  w : Option (List Nat)
  flushed : List Nat
  deriving DecidableEq, Repr

/-- Embedding of `chunkedWriter.Write` (msg.go lines 557-594). -/
def ChunkedWriter.Write (wr : ChunkedWriter) (p : List Nat) : Except IOErr Nat × ChunkedWriter :=
  match wr.w with
  | none => (.error .invalidUse, wr)
  | some out => (.ok p.length, { wr with w := some (out ++ chunkedWrite p) })

/-- Embedding of `chunkedWriter.Close` (msg.go lines 596-610): a closed
handle returns `nil` untouched; otherwise the end-of-chunks marker is
written, the buffer flushed, and `w` set to `nil`. -/
def ChunkedWriter.Close (wr : ChunkedWriter) : Except IOErr Unit × ChunkedWriter :=
  match wr.w with
  | none => (.ok (), wr)
  | some out => (.ok (), { w := none, flushed := wr.flushed ++ out ++ endOfChunks })

/-- Handle state of a `markedWriter` (msg.go lines 696-699). -/
structure MarkedWriter where
  w : Option (List Nat)
  flushed : List Nat
  deriving DecidableEq, Repr

/-- Embedding of `markedWriter.Write` (msg.go lines 701-707). -/
def MarkedWriter.Write (wr : MarkedWriter) (p : List Nat) : Except IOErr Nat × MarkedWriter :=
  match wr.w with
  | none => (.error .invalidUse, wr)
  | some out => (.ok p.length, { wr with w := some (out ++ p) })

/-- Embedding of `markedWriter.Close` (msg.go lines 709-723): a closed
handle returns `nil` untouched; otherwise the sentinel is appended, the
buffer flushed, and `w` set to `nil`. -/
def MarkedWriter.Close (wr : MarkedWriter) : Except IOErr Unit × MarkedWriter :=
  match wr.w with
  | none => (.ok (), wr)
  | some out => (.ok (), { w := none, flushed := wr.flushed ++ out ++ endOfMsg })

/-- Writing a chunking schedule (one `Write` call per list element) through
a fresh chunked writer handle. -/
def writeSchedule (ps : List (List Nat)) : ChunkedWriter :=
  ps.foldl (fun wr p => (wr.Write p).2) ⟨some [], []⟩

/-- Accumulator form of the numeric value of an ASCII digit string, the
mathematical counterpart of the parsing loop (used to state its
correctness). -/
def digitsVal : List Nat → Nat → Nat
  | [], acc => acc
  | c :: ds, acc => digitsVal ds (acc * 10 + (c - 48))

/-- Message-ids written by a run of `n` calls to `Session.Do` starting from
counter value `seq` (session.go line 314): each call atomically increments
the counter — an `atomic.Uint64`, so the increment wraps modulo `2 ^ 64` —
and formats the new value as a decimal string
(`strconv.FormatUint(s.seq.Add(1), 10)`). -/
def msgIDTrace : Nat → Nat → List (List Nat)
  | 0, _ => []
  | n + 1, seq => decimalDigits ((seq + 1) % 2 ^ 64) :: msgIDTrace n ((seq + 1) % 2 ^ 64)

/-- Value of the `uint64` message-id counter after `n` increments from
`seq`, each wrapping modulo `2 ^ 64`. -/
def msgIDState : Nat → Nat → Nat
  | 0, seq => seq
  | n + 1, seq => msgIDState n ((seq + 1) % 2 ^ 64)

/-- The `ErrSeverity` values `SevError` and `SevWarning` (msg.go lines
40-45). -/
inductive ErrSeverity where
  | error
  | warning
  deriving DecidableEq, Repr

/-- Embedding of `RPCError` (msg.go lines 81-89); `error-type` and
`error-tag` are carried as strings, `error-info` as raw bytes. -/
structure RPCError where
  type : String
  tag : String
  severity : ErrSeverity
  appTag : String
  path : String
  message : String
  info : List Nat
  deriving DecidableEq, Repr

/-- Embedding of the decoded `RPCReply` envelope (msg.go lines 28-38). -/
structure RPCReply where
  messageID : String
  attributes : List (String × String)
  RPCErrors : List RPCError
  deriving DecidableEq, Repr

/-- Embedding of `RPCErrors.Filter` (msg.go lines 97-114): keeps the errors
whose severity is in the given list, defaulting to `[SevError]` when the
list is empty. -/
def RPCErrors.Filter (errs : List RPCError) (severity : List ErrSeverity) : List RPCError :=
  if errs = [] then []
  else
    let sevs := if severity = [] then [ErrSeverity.error] else severity
    errs.filter (fun e => sevs.contains e.severity)

/-- The error-checking step of `Session.Exec` (session.go lines 379-383)
applied to a decoded reply: filter the errors of the reply down to severity
`error` and fail with that list when it is nonempty. -/
def execCheck (reply : RPCReply) : Except (List RPCError) Unit :=
  let rpcErrors := RPCErrors.Filter reply.RPCErrors [ErrSeverity.error]
  if rpcErrors.length > 0 then .error rpcErrors else .ok ()

/-- A namespace-qualified XML name (`xml.Name`). -/
structure XmlName where
  Space : String
  Local : String
  deriving DecidableEq, Repr

/-- The NETCONF base namespace (session.go line 22). -/
def NetconfNamespace : String := "urn:ietf:params:xml:ns:netconf:base:1.0"

/-- The NETCONF notification namespace (session.go line 23). -/
def NotificationNamespace : String := "urn:ietf:params:xml:ns:netconf:notification:1.0"

/-- Outcome of one `Session.recvMsg` call as seen by `recvLoop`: `nil`
(continue with the next message), a reply delivered to a pending request
(also `nil`), or an error (the loop breaks and tears the session down). -/
inductive RecvResult where
  | continueLoop
  | delivered (msgID : String)
  | fatal
  deriving DecidableEq, Repr

/-- Embedding of the dispatch on the root element in `Session.recvMsg`
(session.go lines 267-308): an `rpc-reply` in the base namespace is matched
against the pending-request map (a missing or unknown message-id is logged
and the loop continues); any other root name falls to the `default` case,
which returns an `unknown message type` error. -/
def recvMsgDispatch (root : XmlName) (msgID : String) (pendingIDs : List String) : RecvResult :=
  if root = ⟨NetconfNamespace, "rpc-reply"⟩ then
    if msgID = "" then .continueLoop
    else if pendingIDs.contains msgID then .delivered msgID
    else .continueLoop
  else .fatal

/-- Embedding of the loop condition in `Session.recvLoop` (session.go lines
210-215): the loop continues exactly when `recvMsg` returned `nil`. -/
def recvLoopContinues : RecvResult → Bool
  | .fatal => false
  | _ => true

/-- An XML element tree, the shape produced by `encoding/xml` marshalling
(self-closing and empty elements are the same tree). -/
inductive Xml where
  | elem (name : String) (children : List Xml)
  | text (s : String)

/-- Embedding of the `Commit` operation struct (rpc package). -/
structure Commit where
  Confirmed : Bool
  ConfirmTimeout : Int
  PersistID : String

/-- Embedding of `Commit.MarshalXML`: builds the `<commit>` request with
`omitempty` semantics for each field; `PersistID` expands to `<persist>`
when `Confirmed` is set and to `<persist-id>` otherwise; `ExtantBool`
marshals `Confirmed` to an empty `<confirmed>` element exactly when it is
true. -/
def Commit.MarshalXML (rpc : Commit) : Xml :=
  let persist := if rpc.PersistID ≠ "" ∧ rpc.Confirmed then rpc.PersistID else ""
  let persistID := if rpc.PersistID ≠ "" ∧ ¬rpc.Confirmed then rpc.PersistID else ""
  Xml.elem "commit"
    ((if rpc.Confirmed then [Xml.elem "confirmed" []] else [])
      ++ (if rpc.ConfirmTimeout ≠ 0 then
            [Xml.elem "confirm-timeout" [Xml.text (toString rpc.ConfirmTimeout)]] else [])
      ++ (if persist ≠ "" then [Xml.elem "persist" [Xml.text persist]] else [])
      ++ (if persistID ≠ "" then [Xml.elem "persist-id" [Xml.text persistID]] else []))

/-- Errors surfaced by `Commit.Exec`. -/
inductive ExecErr where
  | rpcErrs (errs : List RPCError)
  | okMissing
  deriving DecidableEq, Repr

/-- Embedding of `Commit.Exec` applied to a decoded reply: `Session.Exec`
fails on any severity-`error` rpc-error; otherwise the reply is decoded as
an `OkReply` and the call fails unless the `<ok/>` element was present. -/
def Commit.ExecResult (replyErrors : List RPCError) (okPresent : Bool) : Except ExecErr Unit :=
  let rpcErrors := RPCErrors.Filter replyErrors [ErrSeverity.error]
  if rpcErrors.length > 0 then .error (.rpcErrs rpcErrors)
  else if okPresent then .ok () else .error .okMissing

/-- A sample severity-`error` rpc-error, for witnesses. -/
def sampleError : RPCError :=
  ⟨"rpc", "operation-failed", ErrSeverity.error, "", "", "m", []⟩

/-- A sample severity-`warning` rpc-error, for witnesses. -/
def sampleWarning : RPCError :=
  ⟨"app", "in-use", ErrSeverity.warning, "", "", "w", []⟩

/-- A sample reply carrying one warning and one error. -/
def sampleReply : RPCReply := ⟨"1", [], [sampleWarning, sampleError]⟩

/-! Helper lemmas about the digit/stream primitives. -/

theorem digitsVal_le (ds : List Nat) : ∀ acc, acc ≤ digitsVal ds acc := by
  induction ds with
  | nil => intro acc; exact Nat.le_refl acc
  | cons c ds ih =>
    intro acc
    have h := ih (acc * 10 + (c - 48))
    simp only [digitsVal]
    omega

theorem digitsVal_append (xs ys : List Nat) : ∀ acc,
    digitsVal (xs ++ ys) acc = digitsVal ys (digitsVal xs acc) := by
  induction xs with
  | nil => intro acc; rfl
  | cons c xs ih => intro acc; simp only [List.cons_append, digitsVal, List.append_eq, ih]

theorem digitsVal_decimalDigits (n : Nat) : digitsVal (decimalDigits n) 0 = n := by
  induction n using Nat.strong_induction_on with
  | _ n ih =>
    rw [decimalDigits]
    split
    · simp only [digitsVal]
      omega
    · rename_i h
      rw [digitsVal_append, ih (n / 10) (Nat.div_lt_self (by omega) (by omega))]
      simp only [digitsVal]
      omega

theorem decimalDigits_inj : Function.Injective decimalDigits := by
  intro a b h
  have ha := digitsVal_decimalDigits a
  rw [h, digitsVal_decimalDigits] at ha
  omega

theorem decimalDigits_digits (n : Nat) : ∀ c ∈ decimalDigits n, 48 ≤ c ∧ c ≤ 57 := by
  induction n using Nat.strong_induction_on with
  | _ n ih =>
    rw [decimalDigits]
    split
    · intro c hc
      simp only [List.mem_singleton] at hc
      omega
    · intro c hc
      rw [List.mem_append] at hc
      rcases hc with hc | hc
      · exact ih (n / 10) (Nat.div_lt_self (by omega) (by omega)) c hc
      · simp only [List.mem_singleton] at hc
        have := Nat.mod_lt n (show 0 < 10 by omega)
        omega

theorem decimalDigits_ne_nil (n : Nat) : decimalDigits n ≠ [] := by
  rw [decimalDigits]
  split <;> simp

theorem parseChunkSize_ok (ds : List Nat) : ∀ acc,
    (∀ c ∈ ds, 48 ≤ c ∧ c ≤ 57) → digitsVal ds acc ≤ maxUint32 →
    parseChunkSize acc ds = .ok (digitsVal ds acc) := by
  induction ds with
  | nil => intro acc _ _; rfl
  | cons c ds ih =>
    intro acc hd hv
    obtain ⟨hc1, hc2⟩ := hd c (by simp)
    simp only [digitsVal] at hv
    have hle : acc * 10 + (c - 48) ≤ digitsVal ds (acc * 10 + (c - 48)) :=
      digitsVal_le ds _
    have g2 : acc ≤ maxUint32 / 10 :=
      (Nat.le_div_iff_mul_le (by omega)).mpr (by omega)
    simp only [parseChunkSize, digitsVal]
    rw [if_neg (by omega), if_neg (by omega), if_neg (by omega)]
    exact ih _ (fun x hx => hd x (List.mem_cons_of_mem c hx)) hv

theorem readSliceGo_digits (ds : List Nat) : ∀ (cap : Nat) (rest : List Nat),
    ds.length < cap → (∀ c ∈ ds, 48 ≤ c ∧ c ≤ 57) →
    readSliceGo cap (ds ++ 10 :: rest) = .ok (ds ++ [10], rest) := by
  induction ds with
  | nil =>
    intro cap rest hcap _
    cases cap with
    | zero => omega
    | succ c2 => simp [readSliceGo]
  | cons c ds ih =>
    intro cap rest hcap hds
    obtain ⟨h1, h2⟩ := hds c (by simp)
    cases cap with
    | zero => simp only [List.length_cons] at hcap; omega
    | succ c2 =>
      simp only [List.cons_append, readSliceGo, if_neg (by omega : ¬c = 10), List.append_eq]
      rw [ih c2 rest (by simp only [List.length_cons] at hcap; omega)
        (fun x hx => hds x (List.mem_cons_of_mem c hx))]

theorem readSliceNL_digits (ds : List Nat) (rest : List Nat)
    (hlen : ds.length < bufioBufSize) (hds : ∀ c ∈ ds, 48 ≤ c ∧ c ≤ 57) :
    readSliceNL (ds ++ 10 :: rest) = .ok (ds ++ [10], rest) :=
  readSliceGo_digits ds bufioBufSize rest hlen hds

theorem parseChunkSize_zero_cons (ds : List Nat) :
    parseChunkSize 0 (48 :: ds) = parseChunkSize 0 ds := by
  simp [parseChunkSize, maxUint32]

theorem readHeader_digits (c : Nat) (ds rest : List Nat)
    (hc : 48 ≤ c ∧ c ≤ 57) (hds : ∀ x ∈ ds, 48 ≤ x ∧ x ≤ 57)
    (hfit : ds.length + 1 < bufioBufSize) :
    readHeader (10 :: 35 :: c :: (ds ++ 10 :: rest)) =
      match parseChunkSize 0 (c :: ds) with
      | .error e => .error e
      | .ok 0 => .error .malformedChunk
      | .ok (n + 1) => .ok (n + 1, rest) := by
  cases ds with
  | nil =>
    simp only [List.nil_append, readHeader]
    rw [if_neg (by simp), if_neg (by omega)]
    have h10 : readSliceNL (c :: 10 :: rest) = .ok ([c] ++ [10], rest) :=
      readSliceNL_digits [c] rest (by simpa using hfit) (by simpa using hc)
    simp only [List.cons_append, List.nil_append] at h10
    rw [h10]
    simp only [List.dropLast_cons₂, List.dropLast_single]
    rw [if_neg (by simp)]
  | cons d ds2 =>
    simp only [List.cons_append, readHeader]
    rw [if_neg (by simp), if_neg (by omega)]
    have h10 : readSliceNL ((c :: d :: ds2) ++ 10 :: rest) =
        .ok ((c :: d :: ds2) ++ [10], rest) :=
      readSliceNL_digits (c :: d :: ds2) rest
        (by simp only [List.length_cons] at hfit ⊢; omega)
        (by
          intro x hx
          rcases List.mem_cons.mp hx with h | hx2
          · exact h ▸ hc
          · exact hds x hx2)
    simp only [List.cons_append] at h10
    rw [h10]
    have hdl : (c :: d :: (ds2 ++ [10])).dropLast = c :: d :: ds2 := by
      rw [show c :: d :: (ds2 ++ [10]) = (c :: d :: ds2) ++ [10] by simp,
        List.dropLast_concat]
    simp only [hdl]
    rw [if_neg (by simp)]

theorem decimalDigits_length_le (k : Nat) : ∀ n, n < 10 ^ (k + 1) →
    (decimalDigits n).length ≤ k + 1 := by
  induction k with
  | zero =>
    intro n hn
    rw [decimalDigits, if_pos (by norm_num at hn ⊢; omega)]
    simp
  | succ k2 ih =>
    intro n hn
    rw [decimalDigits]
    split
    · simp
    · rw [List.length_append]
      have hdiv : n / 10 < 10 ^ (k2 + 1) := by
        apply Nat.div_lt_of_lt_mul
        rw [← pow_succ']
        exact hn
      have h3 := ih (n / 10) hdiv
      simp only [List.length_cons, List.length_nil]
      omega

theorem readHeader_decimal (n : Nat) (rest : List Nat)
    (h1 : 1 ≤ n) (h2 : n ≤ maxUint32) :
    readHeader (10 :: 35 :: (decimalDigits n ++ 10 :: rest)) = .ok (n, rest) := by
  have hparse : parseChunkSize 0 (decimalDigits n) = .ok n := by
    have := parseChunkSize_ok (decimalDigits n) 0 (decimalDigits_digits n)
      (by rw [digitsVal_decimalDigits]; exact h2)
    rwa [digitsVal_decimalDigits] at this
  have hlen10 : (decimalDigits n).length ≤ 10 := by
    apply decimalDigits_length_le 9
    have hp : (10:Nat) ^ (9 + 1) = 10000000000 := by norm_num
    simp only [maxUint32] at h2
    omega
  cases hdd : decimalDigits n with
  | nil => exact absurd hdd (decimalDigits_ne_nil n)
  | cons c ds =>
    rw [hdd] at hparse hlen10
    simp only [List.length_cons] at hlen10
    have hall : ∀ x ∈ c :: ds, 48 ≤ x ∧ x ≤ 57 := hdd ▸ decimalDigits_digits n
    rw [List.cons_append, readHeader_digits c ds rest (hall c (by simp))
      (fun x hx => hall x (List.mem_cons_of_mem c hx))
      (by simp only [bufioBufSize]; omega)]
    rw [hparse]
    obtain ⟨m, rfl⟩ : ∃ m, n = m + 1 := ⟨n - 1, by omega⟩
    rfl

theorem readSliceGo_length (input : List Nat) : ∀ cap line r,
    readSliceGo cap input = .ok (line, r) →
    line.length + r.length = input.length ∧ 1 ≤ line.length := by
  induction input with
  | nil =>
    intro cap line r h
    cases cap with
    | zero => exact absurd h (by simp [readSliceGo])
    | succ c2 => exact absurd h (by simp [readSliceGo])
  | cons b rest ih =>
    intro cap line r h
    cases cap with
    | zero => exact absurd h (by simp [readSliceGo])
    | succ c2 =>
      simp only [readSliceGo] at h
      by_cases hb : b = 10
      · rw [if_pos hb] at h
        obtain ⟨rfl, rfl⟩ : [10] = line ∧ rest = r := by
          have h2 := Except.ok.inj h
          exact ⟨congrArg Prod.fst h2, congrArg Prod.snd h2⟩
        simp only [List.length_cons, List.length_nil]
        omega
      · rw [if_neg hb] at h
        cases hrs : readSliceGo c2 rest with
        | error e => rw [hrs] at h; exact absurd h (by simp)
        | ok p =>
          obtain ⟨line2, r2⟩ := p
          rw [hrs] at h
          dsimp only at h
          obtain ⟨rfl, rfl⟩ : b :: line2 = line ∧ r2 = r := by
            have h2 := Except.ok.inj h
            exact ⟨congrArg Prod.fst h2, congrArg Prod.snd h2⟩
          have := ih c2 line2 r2 hrs
          simp only [List.length_cons]
          omega

theorem readSliceNL_length (input : List Nat) : ∀ line r,
    readSliceNL input = .ok (line, r) →
    line.length + r.length = input.length ∧ 1 ≤ line.length :=
  fun line r h => readSliceGo_length input bufioBufSize line r h

theorem readHeader_length (input : List Nat) : ∀ n rest,
    readHeader input = .ok (n, rest) → rest.length + 4 ≤ input.length := by
  intro n rest h
  match input with
  | [] => exact absurd h (by simp [readHeader])
  | [b0] => exact absurd h (by simp [readHeader])
  | [b0, b1] => exact absurd h (by simp [readHeader])
  | [b0, b1, b2] => exact absurd h (by simp [readHeader])
  | b0 :: b1 :: b2 :: b3 :: rest0 =>
    simp only [readHeader] at h
    by_cases h1 : b0 ≠ 10 ∨ b1 ≠ 35
    · rw [if_pos h1] at h; exact absurd h (by simp)
    · rw [if_neg h1] at h
      by_cases h2 : b2 = 35 ∧ b3 = 10
      · rw [if_pos h2] at h
        obtain ⟨rfl, rfl⟩ : 0 = n ∧ rest0 = rest := by
          have := Except.ok.inj h
          exact ⟨congrArg Prod.fst this, congrArg Prod.snd this⟩
        simp
      · rw [if_neg h2] at h
        cases hrs : readSliceNL (b2 :: b3 :: rest0) with
        | error e =>
          rw [hrs] at h
          cases e <;> exact absurd h (by simp)
        | ok p =>
          obtain ⟨line, rest2⟩ := p
          rw [hrs] at h
          dsimp only at h
          have hlen := readSliceNL_length _ _ _ hrs
          by_cases hdig : line.dropLast = []
          · rw [if_pos hdig] at h; exact absurd h (by simp)
          · rw [if_neg hdig] at h
            have hline2 : 2 ≤ line.length := by
              have := List.length_dropLast line
              have hpos : 0 < line.dropLast.length := List.length_pos.mpr hdig
              omega
            cases hps : parseChunkSize 0 line.dropLast with
            | error e => rw [hps] at h; exact absurd h (by simp)
            | ok k =>
              rw [hps] at h
              cases k with
              | zero => exact absurd h (by simp)
              | succ m =>
                obtain ⟨rfl, rfl⟩ : m + 1 = n ∧ rest2 = rest := by
                  have := Except.ok.inj h
                  exact ⟨congrArg Prod.fst this, congrArg Prod.snd this⟩
                simp only [List.length_cons] at hlen ⊢
                omega

theorem readChunkData_length (n : Nat) : ∀ (input d r : List Nat),
    readChunkData n input = some (d, r) → d.length = n ∧ input.length = n + r.length := by
  induction n with
  | zero =>
    intro input d r h
    simp only [readChunkData, Option.some.injEq] at h
    obtain ⟨rfl, rfl⟩ : [] = d ∧ input = r :=
      ⟨congrArg Prod.fst h, congrArg Prod.snd h⟩
    simp
  | succ m ih =>
    intro input d r h
    cases input with
    | nil => exact absurd h (by simp [readChunkData])
    | cons b rest =>
      simp only [readChunkData] at h
      cases hrc : readChunkData m rest with
      | none => rw [hrc] at h; exact absurd h (by simp)
      | some p =>
        obtain ⟨d2, r2⟩ := p
        rw [hrc] at h
        simp only [Option.some.injEq] at h
        obtain ⟨rfl, rfl⟩ : b :: d2 = d ∧ r2 = r :=
          ⟨congrArg Prod.fst h, congrArg Prod.snd h⟩
        have := ih rest d2 r2 hrc
        simp only [List.length_cons]
        omega

theorem readChunkData_append (d : List Nat) : ∀ rest,
    readChunkData d.length (d ++ rest) = some (d, rest) := by
  induction d with
  | nil => intro rest; rfl
  | cons b d ih =>
    intro rest
    simp only [List.length_cons, List.cons_append, readChunkData, List.append_eq, ih]

theorem readMsgGo_fuel (f1 : Nat) : ∀ (f2 : Nat) (input : List Nat),
    input.length < f1 → input.length < f2 → readMsgGo f1 input = readMsgGo f2 input := by
  induction f1 with
  | zero => intro f2 input h1 _; omega
  | succ g1 ih =>
    intro f2 input h1 h2
    cases f2 with
    | zero => omega
    | succ g2 =>
      simp only [readMsgGo]
      cases hh : readHeader input with
      | error e => rfl
      | ok p =>
        obtain ⟨n, rest⟩ := p
        cases n with
        | zero => rfl
        | succ m =>
          have hres := readHeader_length input (m + 1) rest hh
          cases hrc : readChunkData (m + 1) rest with
          | none => simp only [hrc]
          | some q =>
            obtain ⟨data, rest2⟩ := q
            have hcl := readChunkData_length (m + 1) rest data rest2 hrc
            simp only [hrc]
            rw [ih g2 rest2 (by omega) (by omega)]

theorem readMsg_cons (input : List Nat) :
    readMsg input =
      match readHeader input with
      | .error e => .error e
      | .ok (0, rest) => .ok ([], rest)
      | .ok (n + 1, rest) =>
        match readChunkData (n + 1) rest with
        | none => .error .eof
        | some (data, rest2) =>
          match readMsg rest2 with
          | .error e => .error e
          | .ok (tail, r) => .ok (data ++ tail, r) := by
  show readMsgGo (input.length + 1) input = _
  simp only [readMsgGo]
  cases hh : readHeader input with
  | error e => rfl
  | ok p =>
    obtain ⟨n, rest⟩ := p
    cases n with
    | zero => rfl
    | succ m =>
      have hres := readHeader_length input (m + 1) rest hh
      cases hrc : readChunkData (m + 1) rest with
      | none => simp only [hrc]
      | some q =>
        obtain ⟨data, rest2⟩ := q
        have hcl := readChunkData_length (m + 1) rest data rest2 hrc
        simp only [hrc]
        rw [show readMsgGo input.length rest2 = readMsg rest2 from
          readMsgGo_fuel input.length (rest2.length + 1) rest2 (by omega) (by omega)]

theorem readMsg_chunkedWrite (p : List Nat) : ∀ rest,
    readMsg (chunkedWrite p ++ rest) =
      Except.map (fun dr => (p ++ dr.1, dr.2)) (readMsg rest) := by
  suffices H : ∀ (n : Nat) (q : List Nat), q.length = n → ∀ rest,
      readMsg (chunkedWrite q ++ rest) =
        Except.map (fun dr => (q ++ dr.1, dr.2)) (readMsg rest) by
    exact H p.length p rfl
  intro n
  induction n using Nat.strong_induction_on with
  | _ n ih =>
    intro p hn rest
    by_cases hp : p = []
    · subst hp
      have h0 : chunkedWrite [] = [] := by simp [chunkedWrite]
      rw [h0, List.nil_append]
      cases hrr : readMsg rest with
      | error e => simp [Except.map]
      | ok dr => simp [Except.map]
    · rw [chunkedWrite]
      simp only [dif_neg hp]
      have hpl : 0 < p.length := List.length_pos.mpr hp
      obtain ⟨m, hm⟩ : ∃ m2, min p.length maxInt32 = m2 + 1 :=
        ⟨min p.length maxInt32 - 1, by simp only [maxInt32]; omega⟩
      rw [hm]
      have hmp : m + 1 ≤ p.length := by
        have h3 : min p.length maxInt32 ≤ p.length := Nat.min_le_left _ _
        omega
      have hmu : m + 1 ≤ maxUint32 := by
        have h3 : min p.length maxInt32 ≤ maxInt32 := Nat.min_le_right _ _
        rw [hm] at h3
        simp only [maxInt32] at h3
        simp only [maxUint32]
        omega
      simp only [List.cons_append, List.append_assoc, List.singleton_append, List.nil_append]
      rw [readMsg_cons, readHeader_decimal (m + 1) _ (by omega) hmu]
      have hlen : (p.take (m + 1)).length = m + 1 := by
        rw [List.length_take]
        omega
      have hrcd := readChunkData_append (p.take (m + 1)) (chunkedWrite (p.drop (m + 1)) ++ rest)
      rw [hlen] at hrcd
      simp only [hrcd]
      have hdrop : (p.drop (m + 1)).length < n := by
        rw [List.length_drop]
        omega
      rw [ih ((p.drop (m + 1)).length) hdrop (p.drop (m + 1)) rfl rest]
      cases readMsg rest with
      | error e => rfl
      | ok dr =>
        obtain ⟨tail, r⟩ := dr
        simp [Except.map, ← List.append_assoc, List.take_append_drop]

theorem writeSchedule_foldl (ps : List (List Nat)) : ∀ (buf fl : List Nat),
    ps.foldl (fun wr p => (wr.Write p).2) (⟨some buf, fl⟩ : ChunkedWriter)
      = ⟨some (buf ++ (ps.map chunkedWrite).flatten), fl⟩ := by
  induction ps with
  | nil => intro buf fl; simp
  | cons p ps ih =>
    intro buf fl
    rw [List.foldl_cons]
    have hw : ((⟨some buf, fl⟩ : ChunkedWriter).Write p).2
        = (⟨some (buf ++ chunkedWrite p), fl⟩ : ChunkedWriter) := rfl
    rw [hw, ih (buf ++ chunkedWrite p) fl]
    simp [List.append_assoc]

theorem writeSchedule_flushed (ps : List (List Nat)) :
    ((writeSchedule ps).Close).2.flushed = (ps.map chunkedWrite).flatten ++ endOfChunks := by
  unfold writeSchedule
  rw [writeSchedule_foldl ps [] []]
  simp [ChunkedWriter.Close]

/-- C2: chunked round-trip.  For every byte string (presented as any
chunking schedule `ps` of `Write` calls whose concatenation is the string),
writing it through a chunked message writer and closing it, then reading
the produced bytes back through the chunked message reader, yields exactly
the original bytes followed by end-of-stream, consuming the whole
output. -/
theorem chunked_roundtrip (ps : List (List Nat)) :
    readMsg (((writeSchedule ps).Close).2.flushed) = .ok (ps.flatten, []) := by
  rw [writeSchedule_flushed]
  induction ps with
  | nil =>
    simp only [List.map_nil, List.flatten_nil, List.nil_append]
    rfl
  | cons p ps ih =>
    simp only [List.map_cons, List.flatten_cons, List.append_assoc]
    rw [readMsg_chunkedWrite, ih]
    rfl

/-- C4: the chunked header parser rejects each of the exact inputs
`\n#0\n`, `\n#00\n`, `\n#4294967296\n`, `\n#12a3\n` and `x#100\n` with the
malformed-chunk error, and the truncated input `\n#1` with the
unexpected-eof error. -/
theorem readHeader_rejects_concrete :
    readHeader [10, 35, 48, 10] = .error .malformedChunk
  ∧ readHeader [10, 35, 48, 48, 10] = .error .malformedChunk
  ∧ readHeader [10, 35, 52, 50, 57, 52, 57, 54, 55, 50, 57, 54, 10] = .error .malformedChunk
  ∧ readHeader [10, 35, 49, 50, 97, 51, 10] = .error .malformedChunk
  ∧ readHeader [120, 35, 49, 48, 48, 10] = .error .malformedChunk
  ∧ readHeader [10, 35, 49] = .error .unexpectedEOF := by
  refine ⟨by decide, by decide, by decide, by decide, by decide, by decide⟩

/-- C3 counterexample: the chunk header `\n#01\n`, whose size field has a
leading zero and denotes the nonzero size 1, is accepted by the header
parser with size 1 — it is not rejected with the malformed-chunk error. -/
theorem readHeader_leading_zero_cx :
    readHeader [10, 35, 48, 49, 10] = .ok (1, [])
  ∧ readHeader [10, 35, 48, 49, 10] ≠ .error .malformedChunk := by
  refine ⟨by decide, by decide⟩

/-- C3 (amended): for every chunk header whose size field is `0` followed
by a nonempty digit string, and whose padded size line (digits plus
newline) still fits the 4096-byte reader buffer, the header parser does
not reject the leading zero: the header parses exactly as the header
without the leading zero, so a nonzero size such as `\n#01\n` is accepted
with its denoted value rather than rejected as malformed.  (Beyond the
buffer the two headers can differ: the padded line fails with the
buffer-full error of `bufio.ReadSlice` while the unpadded one may still
parse.) -/
theorem readHeader_leading_zero (ds rest : List Nat)
    (hne : ds ≠ []) (hdig : ∀ c ∈ ds, 48 ≤ c ∧ c ≤ 57)
    (hfit : ds.length + 2 ≤ bufioBufSize) :
    readHeader (10 :: 35 :: 48 :: (ds ++ 10 :: rest)) =
      readHeader (10 :: 35 :: (ds ++ 10 :: rest)) := by
  cases ds with
  | nil => exact absurd rfl hne
  | cons c ds2 =>
    obtain ⟨hc1, hc2⟩ := hdig c (by simp)
    simp only [List.length_cons] at hfit
    rw [readHeader_digits 48 (c :: ds2) rest (by omega)
      (fun x hx => hdig x hx) (by simp only [List.length_cons]; omega)]
    rw [List.cons_append, readHeader_digits c ds2 rest ⟨hc1, hc2⟩
      (fun x hx => hdig x (List.mem_cons_of_mem c hx)) (by omega)]
    rw [parseChunkSize_zero_cons]

/-- C3 amended-claim witness: the leading-zero header `\n#01\n` parses the
same as `\n#1\n`. -/
theorem readHeader_leading_zero_witness :
    readHeader [10, 35, 48, 49, 10] = readHeader [10, 35, 49, 10] :=
  readHeader_leading_zero [49] [] (by decide) (by decide) (by decide)

/-- C1 counterexample: an inbound message whose root element is a
notification in the notification namespace is not handled non-fatally:
`recvMsg` falls into the `default` case and returns an error, upon which
the receive loop stops (terminating the session) instead of continuing. -/
theorem recv_notification_fatal_cx :
    recvMsgDispatch ⟨NotificationNamespace, "notification"⟩ "" [] = .fatal
  ∧ recvLoopContinues (recvMsgDispatch ⟨NotificationNamespace, "notification"⟩ "" []) = false := by
  refine ⟨by decide, by decide⟩

/-- C1 (amended): for every inbound message whose root element is not an
rpc-reply in the NETCONF base namespace — notification roots included —
`recvMsg` returns an unknown-message-type error and the receive loop
terminates the session; there is no notification dispatch or drain. -/
theorem recv_nonreply_fatal (root : XmlName) (msgID : String) (pending : List String)
    (h : root ≠ ⟨NetconfNamespace, "rpc-reply"⟩) :
    recvMsgDispatch root msgID pending = .fatal
  ∧ recvLoopContinues (recvMsgDispatch root msgID pending) = false := by
  simp [recvMsgDispatch, h, recvLoopContinues]

/-- C1 amended-claim witness: the notification root is dispatched to the
fatal branch. -/
theorem recv_nonreply_fatal_witness :
    recvMsgDispatch ⟨NotificationNamespace, "notification"⟩ "101" ["101"] = .fatal :=
  (recv_nonreply_fatal ⟨NotificationNamespace, "notification"⟩ "101" ["101"] (by decide)).1

theorem msgIDTrace_eq (n : Nat) : ∀ k, k + n < 2 ^ 64 →
    msgIDTrace n k = (List.range n).map (fun i => decimalDigits (k + i + 1)) := by
  induction n with
  | zero => intro k _; rfl
  | succ m ih =>
    intro k hk
    rw [List.range_succ_eq_map]
    simp only [msgIDTrace, List.map_cons, List.map_map]
    have hmod : (k + 1) % 2 ^ 64 = k + 1 := Nat.mod_eq_of_lt (by omega)
    rw [hmod, ih (k + 1) (by omega)]
    have ht : List.map (fun i => decimalDigits (k + 1 + i + 1)) (List.range m)
        = List.map ((fun i => decimalDigits (k + i + 1)) ∘ Nat.succ) (List.range m) := by
      apply List.map_congr_left
      intro j hj
      simp only [Function.comp_apply]
      congr 1
      omega
    rw [ht]

theorem msgIDTrace_append (m : Nat) : ∀ (n k : Nat),
    msgIDTrace (m + n) k = msgIDTrace m k ++ msgIDTrace n (msgIDState m k) := by
  induction m with
  | zero =>
    intro n k
    simp only [Nat.zero_add, msgIDTrace, msgIDState, List.nil_append]
  | succ m2 ih =>
    intro n k
    have hadd : m2 + 1 + n = (m2 + n) + 1 := by omega
    rw [hadd]
    simp only [msgIDTrace, msgIDState, List.cons_append]
    rw [ih n ((k + 1) % 2 ^ 64)]

theorem msgIDState_eq (m : Nat) : ∀ k, k < 2 ^ 64 →
    msgIDState m k = (k + m) % 2 ^ 64 := by
  induction m with
  | zero =>
    intro k hk
    simp only [msgIDState]
    omega
  | succ m2 ih =>
    intro k hk
    simp only [msgIDState]
    rw [ih ((k + 1) % 2 ^ 64) (Nat.mod_lt _ (by omega))]
    rw [Nat.mod_add_mod]
    congr 1
    omega

/-- C5 counterexample: the message-id counter is a `uint64` and wraps: a
session that makes `2 ^ 64 + 1` calls reuses a message-id (the last call
writes `1` again), so the trace is not duplicate-free and does not equal
the decimal strings of `1, ..., n`. -/
theorem msgID_wrap_cx :
    ¬ (msgIDTrace (2 ^ 64 + 1) 0).Nodup
  ∧ msgIDTrace (2 ^ 64 + 1) 0
      ≠ (List.range (2 ^ 64 + 1)).map (fun i => decimalDigits (i + 1)) := by
  have hdd1 : decimalDigits 1 = [49] := by
    rw [decimalDigits]
    norm_num
  have hmod1 : (0 + 1) % 2 ^ 64 = 1 := by omega
  have h1 : msgIDTrace 1 0 = [[49]] := by
    simp only [msgIDTrace, hmod1, hdd1]
  have hs1 : msgIDState 1 0 = 1 := by
    simp only [msgIDState]
    omega
  have hsplit1 : msgIDTrace (1 + 2 ^ 64) 0 = [[49]] ++ msgIDTrace (2 ^ 64) 1 := by
    rw [msgIDTrace_append 1 (2 ^ 64) 0, h1, hs1]
  have hsplit2 : msgIDTrace (2 ^ 64) 1 = msgIDTrace (2 ^ 64 - 1) 1 ++ [[49]] := by
    have e1 : (2:Nat) ^ 64 = (2 ^ 64 - 1) + 1 := by omega
    nth_rewrite 1 [e1]
    rw [msgIDTrace_append (2 ^ 64 - 1) 1 1]
    rw [msgIDState_eq (2 ^ 64 - 1) 1 (by omega)]
    have e2 : (1 + (2 ^ 64 - 1)) % 2 ^ 64 = 0 := by omega
    rw [e2, h1]
  have e3 : (2:Nat) ^ 64 + 1 = 1 + 2 ^ 64 := by omega
  have hdup : ¬ (msgIDTrace (2 ^ 64 + 1) 0).Nodup := by
    rw [e3, hsplit1, hsplit2, List.singleton_append]
    intro hnd
    rcases List.nodup_cons.mp hnd with ⟨hnotmem, _⟩
    exact hnotmem (List.mem_append_right _ (by simp))
  refine ⟨hdup, fun heq => hdup ?_⟩
  rw [heq]
  refine List.Nodup.map ?_ (List.nodup_range _)
  intro a b hab
  have h3 := decimalDigits_inj hab
  omega

/-- C5 (amended): message-id monotonicity up to the width of the counter.
For every session and every sequence of `n` calls to `Do` with
`n < 2 ^ 64`, the message-id attributes written on the wire are the decimal
strings of `1, 2, ..., n` in assignment order (the counter starts at zero
and each call uses its atomic increment) and no message-id is reused; the
counter is a `uint64`, so beyond `2 ^ 64` calls it wraps and ids repeat. -/
theorem msgID_sequence (n : Nat) (h : n < 2 ^ 64) :
    msgIDTrace n 0 = (List.range n).map (fun i => decimalDigits (i + 1))
  ∧ (msgIDTrace n 0).Nodup := by
  have he : msgIDTrace n 0 = (List.range n).map (fun i => decimalDigits (i + 1)) := by
    rw [msgIDTrace_eq n 0 (by omega)]
    apply List.map_congr_left
    intro j hj
    congr 1
    omega
  refine ⟨he, ?_⟩
  rw [he]
  refine List.Nodup.map ?_ (List.nodup_range n)
  intro a b hab
  have h2 := decimalDigits_inj hab
  omega

/-- C5 amended-claim witness: a three-call session writes ids 1, 2, 3. -/
theorem msgID_sequence_witness :
    msgIDTrace 3 0 = (List.range 3).map (fun i => decimalDigits (i + 1))
  ∧ (msgIDTrace 3 0).Nodup :=
  msgID_sequence 3 (by decide)

theorem Filter_error_eq (errs : List RPCError) :
    RPCErrors.Filter errs [ErrSeverity.error] =
      errs.filter (fun e => e.severity = ErrSeverity.error) := by
  unfold RPCErrors.Filter
  by_cases h : errs = []
  · simp [h]
  · rw [if_neg h, if_neg (by simp)]
    apply List.filter_congr
    intro e _
    cases he : e.severity <;> simp [he, List.contains_cons]

/-- C6: given a well-formed decoded rpc-reply, `Exec` fails if and only if
the reply contains at least one rpc-error child with severity `error`; the
returned error value is exactly the ordered sublist of those severity-error
entries (each field of every entry preserved unchanged), and rpc-errors with
severity `warning` alone do not fail the call. -/
theorem exec_error_filtering (reply : RPCReply) :
    (execCheck reply = .ok () ↔
        reply.RPCErrors.filter (fun e => e.severity = ErrSeverity.error) = [])
  ∧ (∀ errs, execCheck reply = .error errs →
        errs = reply.RPCErrors.filter (fun e => e.severity = ErrSeverity.error))
  ∧ ((∀ e ∈ reply.RPCErrors, e.severity = ErrSeverity.warning) →
        execCheck reply = .ok ()) := by
  unfold execCheck
  rw [Filter_error_eq]
  by_cases h : reply.RPCErrors.filter (fun e => e.severity = ErrSeverity.error) = []
  · rw [h]
    simp
  · have hl : 0 < (reply.RPCErrors.filter (fun e => e.severity = ErrSeverity.error)).length :=
      List.length_pos.mpr h
    rw [if_pos hl]
    refine ⟨by simp [h], ?_, ?_⟩
    · intro errs he
      exact (Except.error.inj he).symm
    · intro hw
      exfalso
      apply h
      rw [List.filter_eq_nil_iff]
      intro e hemem
      rw [hw e hemem]
      simp

/-- C6 witness: on a reply carrying one warning and one severity-error
entry, the call fails and surfaces exactly the error entry. -/
theorem exec_error_filtering_witness :
    [sampleError] = sampleReply.RPCErrors.filter (fun e => e.severity = ErrSeverity.error) :=
  (exec_error_filtering sampleReply).2.1 [sampleError] (by decide)

/-- C7: handle exclusivity in the framer.  Requesting a reader (writer)
handle while the reader-active (writer-active) flag is set fails with the
stream-busy error; closing a handle clears its flag so a new handle can be
acquired; and the two flags are independent, so one reader and one writer
handle can be outstanding at the same time. -/
theorem framer_exclusive (f : Framer) :
    (f.activeReader = true → f.MsgReader = .error .streamBusy)
  ∧ (f.activeWriter = true → f.MsgWriter = .error .streamBusy)
  ∧ f.closeReader.MsgReader = .ok { f with activeReader := true }
  ∧ f.closeWriter.MsgWriter = .ok { f with activeWriter := true }
  ∧ (f.activeReader = false → f.activeWriter = false →
      f.MsgReader = .ok { f with activeReader := true }
      ∧ Framer.MsgWriter { f with activeReader := true }
          = .ok { f with activeReader := true, activeWriter := true }) := by
  refine ⟨?_, ?_, ?_, ?_, ?_⟩
  · intro h; simp [Framer.MsgReader, h]
  · intro h; simp [Framer.MsgWriter, h]
  · simp [Framer.MsgReader, Framer.closeReader]
  · simp [Framer.MsgWriter, Framer.closeWriter]
  · intro h1 h2
    constructor
    · simp [Framer.MsgReader, h1]
    · simp [Framer.MsgWriter, h2]

/-- C7 witness: concrete busy and coexistence cases. -/
theorem framer_exclusive_witness :
    Framer.MsgReader ⟨false, true, true⟩ = .error .streamBusy
  ∧ Framer.MsgWriter ⟨false, true, true⟩ = .error .streamBusy
  ∧ Framer.MsgReader ⟨false, false, false⟩ = .ok ⟨false, true, false⟩
  ∧ Framer.MsgWriter ⟨false, true, false⟩ = .ok ⟨false, true, true⟩ :=
  ⟨(framer_exclusive ⟨false, true, true⟩).1 rfl,
   (framer_exclusive ⟨false, true, true⟩).2.1 rfl,
   ((framer_exclusive ⟨false, false, false⟩).2.2.2.2 rfl rfl).1,
   ((framer_exclusive ⟨false, false, false⟩).2.2.2.2 rfl rfl).2⟩

/-- C8 counterexample: for the byte string `]]>` (which does not contain the
sentinel), writing it and reading it back does not yield the string: the
reader sees a sentinel straddling the body/close boundary, delivers the
empty message, and leaves three bytes unconsumed. -/
theorem marked_roundtrip_cx :
    markedReadAll (markedFramed [93, 93, 62]) = .ok ([], [93, 93, 62])
  ∧ markedReadAll (markedFramed [93, 93, 62]) ≠ .ok ([93, 93, 62], []) := by
  refine ⟨by decide, by decide⟩

/-- C8 (amended): only the complete six-byte sentinel terminates a message —
the input `foo]]>]]bar]]>]]>` delivers exactly `foo]]>]]bar` and then
end-of-stream with the sentinel consumed; and for every byte string `s`
such that the sentinel does not occur in `s ++ sentinel` before position
`|s|` (so in particular `s` contains no sentinel and does not end with
`]]>`), writing `s` and reading it back yields exactly `s`. -/
theorem marked_roundtrip :
    (markedReadAll (markedFramed [102, 111, 111, 93, 93, 62, 93, 93, 98, 97, 114])
        = .ok ([102, 111, 111, 93, 93, 62, 93, 93, 98, 97, 114], []))
  ∧ ∀ (s : List Nat),
      (∀ i < s.length, ((s ++ endOfMsg).drop i).take 6 ≠ endOfMsg) →
      markedReadAll (markedFramed s) = .ok (s, []) := by
  constructor
  · decide
  · intro s
    induction s with
    | nil => intro _; decide
    | cons b s2 ih =>
      intro H
      have H0 := H 0 (by simp)
      have H2 : ∀ i < s2.length, ((s2 ++ endOfMsg).drop i).take 6 ≠ endOfMsg := by
        intro i hi
        have h3 := H (i + 1) (by simp only [List.length_cons]; omega)
        rw [List.cons_append, List.drop_succ_cons] at h3
        exact h3
      have hrec := ih H2
      simp only [markedFramed] at hrec ⊢
      rw [List.cons_append]
      have hlen5 : 5 ≤ (s2 ++ endOfMsg).length := by
        simp [endOfMsg]
      by_cases hb : b = 93
      · subst hb
        have hne : (s2 ++ endOfMsg).take 5 ≠ [93, 62, 93, 93, 62] := by
          intro hEq
          apply H0
          rw [List.drop_zero, List.cons_append, List.take_succ_cons, hEq]
          rfl
        simp only [markedReadAll, if_pos rfl, if_pos hlen5, if_neg hne, hrec]
        simp
      · simp only [markedReadAll, if_neg hb, hrec]

/-- C8 amended-claim witness: a plain body round-trips. -/
theorem marked_roundtrip_witness :
    markedReadAll (markedFramed [102, 111, 111]) = .ok ([102, 111, 111], []) :=
  marked_roundtrip.2 [102, 111, 111] (by decide)

/-- C9: marshalling the commit operation with `Confirmed` set and
`PersistID` set to `foobar` produces
`<commit><confirmed/><persist>foobar</persist></commit>` (the `PersistID`
value is emitted as a `<persist>` element because `Confirmed` is set), and
a server reply containing `<ok/>` and no rpc-errors makes the commit call
return success. -/
theorem commit_confirmed_persist :
    Commit.MarshalXML ⟨true, 0, "foobar"⟩ =
      Xml.elem "commit" [Xml.elem "confirmed" [], Xml.elem "persist" [Xml.text "foobar"]]
  ∧ Commit.ExecResult [] true = .ok () := by
  constructor
  · rfl
  · rfl

/-- C10: once `Close` has been called on a framer message reader or writer
handle, every subsequent `Read`, `ReadByte` or `Write` on that handle
returns the invalid-io error and leaves the handle (and the shared stream)
untouched, and a second `Close` is a no-op returning nil; `Close` always
leaves the handle in the closed state. -/
theorem closed_handle_invalid_io :
    (∀ rd : ChunkedReader, rd.r = none →
        rd.ReadByte = (.error .invalidUse, rd)
      ∧ (∀ cap, rd.Read cap = (.error .invalidUse, rd))
      ∧ rd.Close = (.ok (), rd))
  ∧ (∀ rd : MarkedReader, rd.r = none →
        rd.ReadByte = (.error .invalidUse, rd)
      ∧ (∀ cap, 0 < cap → rd.Read cap = ([], .error .invalidUse, rd))
      ∧ rd.Close = (.ok (), rd))
  ∧ (∀ wr : ChunkedWriter, wr.w = none →
        (∀ p, wr.Write p = (.error .invalidUse, wr)) ∧ wr.Close = (.ok (), wr))
  ∧ (∀ wr : MarkedWriter, wr.w = none →
        (∀ p, wr.Write p = (.error .invalidUse, wr)) ∧ wr.Close = (.ok (), wr))
  ∧ (∀ rd : ChunkedReader, ((rd.Close).2).r = none)
  ∧ (∀ rd : MarkedReader, ((rd.Close).2).r = none)
  ∧ (∀ wr : ChunkedWriter, ((wr.Close).2).w = none)
  ∧ (∀ wr : MarkedWriter, ((wr.Close).2).w = none) := by
  refine ⟨?_, ?_, ?_, ?_, ?_, ?_, ?_, ?_⟩
  · rintro ⟨r, cl, eo⟩ h
    cases h
    exact ⟨rfl, fun cap => rfl, rfl⟩
  · rintro ⟨r, eo⟩ h
    cases h
    refine ⟨rfl, ?_, rfl⟩
    intro cap hc
    cases cap with
    | zero => omega
    | succ c => rfl
  · rintro ⟨w, fl⟩ h
    cases h
    exact ⟨fun p => rfl, rfl⟩
  · rintro ⟨w, fl⟩ h
    cases h
    exact ⟨fun p => rfl, rfl⟩
  · rintro ⟨r, cl, eo⟩
    cases r with
    | none => rfl
    | some input =>
      cases eo with
      | true => rfl
      | false =>
        cases hrc : readChunkData cl input with
        | none => simp [ChunkedReader.Close, hrc]
        | some q =>
          obtain ⟨d, rest⟩ := q
          cases hrm : readMsg rest with
          | error e => simp [ChunkedReader.Close, hrc, hrm]
          | ok v => simp [ChunkedReader.Close, hrc, hrm]
  · rintro ⟨r, eo⟩
    cases r with
    | none => rfl
    | some input =>
      cases eo with
      | true => rfl
      | false =>
        cases hrm : markedReadAll input with
        | error e => simp [MarkedReader.Close, hrm]
        | ok v => simp [MarkedReader.Close, hrm]
  · rintro ⟨w, fl⟩
    cases w with
    | none => rfl
    | some out => rfl
  · rintro ⟨w, fl⟩
    cases w with
    | none => rfl
    | some out => rfl

/-- C10 witness: concrete closed handles of each kind. -/
theorem closed_handle_invalid_io_witness :
    ChunkedReader.ReadByte ⟨none, 0, false⟩ = (.error .invalidUse, ⟨none, 0, false⟩)
  ∧ MarkedReader.Read ⟨none, false⟩ 1 = ([], .error .invalidUse, ⟨none, false⟩)
  ∧ ChunkedWriter.Write ⟨none, []⟩ [1, 2] = (.error .invalidUse, ⟨none, []⟩)
  ∧ MarkedWriter.Close ⟨none, []⟩ = (.ok (), ⟨none, []⟩) :=
  ⟨(closed_handle_invalid_io.1 ⟨none, 0, false⟩ rfl).1,
   (closed_handle_invalid_io.2.1 ⟨none, false⟩ rfl).2.1 1 (by omega),
   (closed_handle_invalid_io.2.2.1 ⟨none, []⟩ rfl).1 [1, 2],
   (closed_handle_invalid_io.2.2.2.1 ⟨none, []⟩ rfl).2⟩

end Netconf
